import Mathlib

/-!
Verification of the LocalDeepgramSTT transcription pipeline core.

This file gives a shallow embedding of the pipeline's pure logic:

- the dedup tracker ledger (`file_tracker.py`): a JSON object
  `{"directories": {dir: {"files": {hash: record}}}}`, embedded as an
  association list from directory strings to association lists from
  content hashes to records;
- the segment (chunk) generation loop (`utils/audio_utils.py`,
  `chunk_audio`), embedded as a fuel-indexed loop over an oracle that
  reports whether each produced chunk is valid audio;
- the retry/gather/recombination logic of `transcriber.py`
  (`transcribe_chunk` under `backoff.on_exception(max_tries=3)`,
  `transcribe_audio`, `combine_transcriptions`, `process_file`).

Python dictionaries are embedded as association lists whose update
operation replaces the first binding of an existing key in place and
appends a fresh key at the end, matching insertion-ordered dict
semantics.  The SHA-256 digest computed by `get_file_hash` is embedded
as an injective function of the file's byte content (its collision
freeness is idealized); the byte content itself serves as the digest.
-/

set_option autoImplicit false

namespace STT

/-! ## Association-list primitives (Python dict embedding) -/

variable {α β : Type} [DecidableEq α]

/-- Lookup of a key in an association list, first binding wins
(Python `d[k]` / `k in d`). -/
def alookup (k : α) : List (α × β) → Option β
  | [] => none
  | (k', v) :: rest => if k = k' then some v else alookup k rest

/-- Update-or-append of a binding (Python `d[k] = v`): the first
existing binding of `k` is replaced in place, otherwise the new binding
is appended at the end. -/
def aset (k : α) (v : β) : List (α × β) → List (α × β)
  | [] => [(k, v)]
  | (k', v') :: rest => if k = k' then (k, v) :: rest else (k', v') :: aset k v rest

/-- Deletion of a binding (Python `del d[k]`): removes the first
binding of `k`. -/
def aerase (k : α) : List (α × β) → List (α × β)
  | [] => []
  | (k', v') :: rest => if k = k' then rest else (k', v') :: aerase k rest

/-- Number of bindings of key `k` in an association list. -/
def countKey (k : α) : List (α × β) → Nat
  | [] => 0
  | (k', _) :: rest => (if k' = k then 1 else 0) + countKey k rest

/-! ## Data model: files and the dedup ledger (`file_tracker.py`) -/

/-- A source media file: parent directory, base name stem, extension
and byte content.  `dir` plays the role of `str(file_path.parent)`,
`stem ++ ext` the role of `file_path.name`. -/
structure File where
  dir : String
  stem : String
  ext : String
  content : List Nat
deriving DecidableEq

/-- Python `file_path.name`. -/
def File.name (f : File) : String := f.stem ++ f.ext

/-- Python `str(file_path)`. -/
def File.path (f : File) : String := f.dir ++ "/" ++ f.name

/-- Content digests.  `get_file_hash` computes the SHA-256 hex digest
of the file's bytes; the digest is embedded as the byte list itself,
idealizing SHA-256 as injective on contents. -/
abbrev Hash : Type := List Nat

/-- Embedding of `FileTracker.get_file_hash`: a digest determined by,
and only by, the byte content of the file. -/
def get_file_hash (f : File) : Hash := f.content

/-- One entry of the ledger (`mark_file_as_processed` stores `name`,
`size`, `processed_time` and `path`). -/
structure Record where
  name : String
  size : Nat
  processed_time : Nat
  path : String
deriving DecidableEq

/-- Ledger state: the value of the `"directories"` key of
`processed_files.json`, mapping a directory path to its `"files"` map
from content hash to record.  The JSON file renders hash keys as hex
digest strings; since the digest is embedded as an injective function
of the content, the inner map is keyed by the `Hash` value itself. -/
abbrev Ledger : Type := List (String × List (Hash × Record))

/-- The record `mark_file_as_processed` builds for a file at a given
current time (`time.time()` passed explicitly). -/
def mkRecord (f : File) (t : Nat) : Record :=
  { name := f.name
    size := f.content.length
    processed_time := t
    path := f.path }

/-- Embedding of `FileTracker.is_file_processed`: the file's hash and
parent directory are computed, and the check is
`dir in directories and hash in directories[dir]["files"]`. -/
def is_file_processed (st : Ledger) (f : File) : Bool :=
  match alookup f.dir st with
  | none => false
  | some files => (alookup (get_file_hash f) files).isSome

/-- Embedding of `FileTracker.mark_file_as_processed`: ensure the
directory entry exists (creating it with an empty files map if
absent), then assign the record at the file's hash key. -/
def mark_file_as_processed (f : File) (t : Nat) (st : Ledger) : Ledger :=
  let st' := match alookup f.dir st with
    | some _ => st
    | none => aset f.dir [] st
  let files := (alookup f.dir st').getD []
  aset f.dir (aset (get_file_hash f) (mkRecord f t) files) st'

/-- Embedding of `FileTracker.remove_file`: delete the record at the
file's hash under its directory; when that directory's files map
becomes empty, delete the directory entry itself; report whether a
record was removed. -/
def remove_file (f : File) (st : Ledger) : Bool × Ledger :=
  match alookup f.dir st with
  | none => (false, st)
  | some files =>
    if (alookup (get_file_hash f) files).isSome then
      let files' := aerase (get_file_hash f) files
      if files'.isEmpty then
        (true, aerase f.dir st)
      else
        (true, aset f.dir files' st)
    else
      (false, st)

/-- The possible states of the persisted ledger file at startup, as
`load_processed_files` distinguishes them: the file may be missing, it
may hold only whitespace, it may fail to decode as JSON
(`json.JSONDecodeError`, a malformed ledger), or it may decode to the
expected `{"directories": ...}` structure. -/
inductive LedgerSource where
  | missing
  | empty
  | malformed
  | decoded (st : Ledger)

/-- Embedding of `FileTracker.load_processed_files`: a missing, empty
or undecodable ledger file degrades to the empty structure
`{"directories": {}}` without raising; a decodable one is loaded
as is. -/
def load_processed_files : LedgerSource → Ledger
  | .missing => []
  | .empty => []
  | .malformed => []
  | .decoded st => st

/-- Total number of processed records held in a ledger. -/
def totalRecords (st : Ledger) : Nat :=
  (st.map (fun p => p.2.length)).sum

/-- The structural invariant of claim C10: every directory entry
present in the ledger holds a non-empty files map. -/
def LedgerInv (st : Ledger) : Prop :=
  ∀ p ∈ st, p.2 ≠ []

/-- A mutation of the ledger: marking a file processed at some time,
or removing a file. -/
inductive Op where
  | mark (f : File) (t : Nat)
  | remove (f : File)

/-- Apply one ledger mutation. -/
def applyOp (st : Ledger) : Op → Ledger
  | .mark f t => mark_file_as_processed f t st
  | .remove f => (remove_file f st).2

/-- Apply a sequence of ledger mutations in order. -/
def applyOps (ops : List Op) (st : Ledger) : Ledger :=
  ops.foldl applyOp st

/-! ## Segmentation (`utils/audio_utils.py`, `chunk_audio`)

The chunking loop repeatedly asks ffmpeg for the window
`[n * CHUNK_SIZE, n * CHUNK_SIZE + CHUNK_SIZE)` of the audio and
validates the produced file (`is_valid_audio` plus a positive probed
duration).  The outcome of producing and validating chunk number `n`
is embedded as an oracle `valid : Nat → Bool`; the loop itself is pure
bookkeeping over that oracle.  The `while True` loop of the source is
made total with a fuel argument; the theorems below show the result
does not depend on the fuel once the fuel reaches the loop's stopping
point. -/

/-- Fixed segment length: `CHUNK_SIZE = 15 * 60` seconds. -/
def CHUNK_SIZE : ℚ := 15 * 60

/-- Embedding of the `while True:` loop body of `chunk_audio`: at the
top of each iteration the loop stops when `invalid_count` has reached
`max_invalid = 3`; otherwise chunk `chunkNum` is produced, and it is
either kept (resetting `invalid_count` to `0`) or discarded
(incrementing `invalid_count`); `chunk_num` increases every
iteration.  Returns the kept chunk numbers in production order. -/
def chunkLoop (valid : Nat → Bool) : Nat → Nat → Nat → List Nat
  | 0, _, _ => []
  | fuel + 1, chunkNum, invalidCount =>
    if 3 ≤ invalidCount then []
    else if valid chunkNum then
      chunkNum :: chunkLoop valid fuel (chunkNum + 1) 0
    else
      chunkLoop valid fuel (chunkNum + 1) (invalidCount + 1)

/-- Three consecutive invalid chunks starting at chunk number `m`. -/
def threeConsec (valid : Nat → Bool) (m : Nat) : Prop :=
  valid m = false ∧ valid (m + 1) = false ∧ valid (m + 2) = false

instance (valid : Nat → Bool) (m : Nat) : Decidable (threeConsec valid m) := by
  unfold threeConsec
  infer_instance

/-- Physical model of the external segmenter on a source of duration
`D`: extraction of the window starting at `n * CHUNK_SIZE` yields a
valid audio chunk exactly when the window start lies inside the
stream, `n * CHUNK_SIZE < D`. -/
def chunkValid (D : ℚ) (n : Nat) : Bool :=
  decide ((n : ℚ) * CHUNK_SIZE < D)

/-- Start offset of chunk `n` (`start_time = chunk_num * CHUNK_SIZE`). -/
def chunkStart (n : Nat) : ℚ := (n : ℚ) * CHUNK_SIZE

/-- Physical duration of chunk `n` of a source of duration `D`:
ffmpeg is asked for `CHUNK_SIZE` seconds (`-t CHUNK_SIZE`) and the
stream is truncated at the end of the source. -/
def chunkDuration (D : ℚ) (n : Nat) : ℚ :=
  min CHUNK_SIZE (D - (n : ℚ) * CHUNK_SIZE)

/-- The number of valid chunks a source of duration `D` yields. -/
def numChunks (D : ℚ) : Nat := (Int.ceil (D / CHUNK_SIZE)).toNat

/-- Embedding of `chunk_audio` on a source whose probed duration is
`D`, under the physical model `chunkValid`/`chunkDuration`: the chunk
numbers the loop keeps.  The fuel exceeds the stopping point of the
loop, which the `chunkLoop` theorems show is all that matters. -/
def chunk_audio (D : ℚ) : List Nat :=
  chunkLoop (chunkValid D) (numChunks D + 4) 0 0

/-! ## Provider responses and recombination (`transcriber.py`) -/

/-- One speaker-attributed paragraph of a Deepgram response. -/
structure Paragraph where
  speaker : Nat
  text : String
deriving DecidableEq

/-- One recognized word of a Deepgram response. -/
structure Word where
  word : String
  speaker : Nat
deriving DecidableEq

/-- Typed embedding of the provider response dictionary, holding the
fields `transcriber.py` reads at
`results.channels[0].alternatives[0]`: the plain transcript, the word
list and the optional speaker-attributed paragraphs. -/
structure DGResponse where
  transcript : String
  words : List Word
  paragraphs : Option (List Paragraph)
deriving DecidableEq

/-- The error taxonomy of a provider call: the wall-clock timeout
(`asyncio.TimeoutError`) or any other provider/transport exception. -/
inductive TranscribeError where
  | timeout
  | provider (msg : String)
deriving DecidableEq

instance {ε σ : Type} [DecidableEq ε] [DecidableEq σ] : DecidableEq (Except ε σ) := fun x y =>
  match x, y with
  | .ok a, .ok b =>
    if h : a = b then isTrue (by rw [h]) else isFalse (fun hc => h (Except.ok.inj hc))
  | .error e, .error e' =>
    if h : e = e' then isTrue (by rw [h]) else isFalse (fun hc => h (Except.error.inj hc))
  | .ok _, .error _ => isFalse (fun hc => Except.noConfusion hc)
  | .error _, .ok _ => isFalse (fun hc => Except.noConfusion hc)

/-- Embedding of the loop body of `combine_transcriptions`: append the
next response's transcript after a single space, extend the word list,
and extend the paragraph list when the base response carries one. -/
def combineStep (acc t : DGResponse) : DGResponse :=
  { transcript := acc.transcript ++ " " ++ t.transcript
    words := acc.words ++ t.words
    paragraphs := acc.paragraphs.map (fun ps => ps ++ t.paragraphs.getD []) }

/-- Embedding of `combine_transcriptions`: a copy of the first
response extended by every later response in list order.  The source
only calls it on lists of two or more responses; on `[]` the embedding
returns an empty response. -/
def combine_transcriptions : List DGResponse → DGResponse
  | [] => { transcript := "", words := [], paragraphs := none }
  | t0 :: rest => rest.foldl combineStep t0

/-- Embedding of the collection loop of `transcribe_audio`: walk the
gathered per-chunk outcomes in task order, drop the exceptions and
keep the successful responses. -/
def valid_transcriptions (results : List (Except TranscribeError DGResponse)) :
    List DGResponse :=
  results.filterMap Except.toOption

/-- Embedding of the tail of `transcribe_audio`: combine when more
than one chunk succeeded, pass the single response through when
exactly one did, and fail (`None`) when none did. -/
def transcribe_audio (results : List (Except TranscribeError DGResponse)) :
    Option DGResponse :=
  let valid := valid_transcriptions results
  if valid.length > 1 then some (combine_transcriptions valid)
  else if valid.length = 1 then valid.head?
  else none

/-- Modelled from the spec: the Recombiner's plain-text stream is the
concatenation of the per-segment transcripts joined by a single
space. -/
def specJoinSpace : List String → String
  | [] => ""
  | [s] => s
  | s :: rest => s ++ " " ++ specJoinSpace rest

/-- Embedding of `asyncio.gather` fan-in: the per-chunk outcomes in an
arbitrary completion order, tagged with their chunk index, are
collected back into task-submission (index) order.  An index absent
from `completed` defaults to a timeout error; the recombination
theorem only uses complete completion lists, where the default is
never taken. -/
def gatherByIndex (N : Nat) (completed : List (Nat × Except TranscribeError DGResponse)) :
    List (Except TranscribeError DGResponse) :=
  (List.range N).map fun i =>
    ((completed.find? (fun p => p.1 == i)).map Prod.snd).getD (.error .timeout)

/-! ## Retry policy (`transcribe_chunk` under `backoff`) -/

/-- The hard wall-clock timeout of one provider call, seconds
(`self.timeout = 600`). -/
def TIMEOUT : Nat := 600

/-- The retry bound of `backoff.on_exception(backoff.expo, Exception,
max_tries=3)`: at most three attempts in total. -/
def MAX_TRIES : Nat := 3

/-- The behavior of one underlying provider call: how long it would
run, and what it would return if allowed to finish. -/
structure ProviderAttempt where
  elapsed : Nat
  result : Except TranscribeError DGResponse

/-- The outcome of one attempt of `transcribe_chunk`: a call running
past the wall-clock timeout is cut off by `asyncio.wait_for` and
surfaces as a timeout error (caught, logged and re-raised by the
source, hence a failed attempt like any other); otherwise the call's
own outcome stands. -/
def attemptOutcome (a : ProviderAttempt) : Except TranscribeError DGResponse :=
  if TIMEOUT < a.elapsed then .error .timeout else a.result

/-- Embedding of the `backoff.on_exception` retry wrapper: run the
attempts in order while failures remain and tries are left; return
the first success or the last failure, together with the number of
attempts actually made.  The first argument is the number of tries
still allowed, the second the index of the next attempt. -/
def retryCall (attempt : Nat → Except TranscribeError DGResponse) :
    Nat → Nat → Except TranscribeError DGResponse × Nat
  | 0, k => (.error .timeout, k)
  | triesLeft + 1, k =>
    match attempt k, triesLeft with
    | .ok r, _ => (.ok r, k + 1)
    | .error e, 0 => (.error e, k + 1)
    | .error _, t + 1 => retryCall attempt (t + 1) (k + 1)

/-- Embedding of `transcribe_chunk` for one chunk whose successive
attempt behaviors are `attempts`: the retried call and the number of
attempts made. -/
def transcribe_chunk (attempts : Nat → ProviderAttempt) :
    Except TranscribeError DGResponse × Nat :=
  retryCall (fun i => attemptOutcome (attempts i)) MAX_TRIES 0

/-- Embedding of the fan-out of `transcribe_audio`: one retried
`transcribe_chunk` task per chunk, gathered with
`return_exceptions=True`, so each entry of the result list is that
chunk's own terminal outcome. -/
def gather_results (N : Nat) (attempts : Nat → Nat → ProviderAttempt) :
    List (Except TranscribeError DGResponse) :=
  (List.range N).map fun c => (transcribe_chunk (attempts c)).1

/-! ## The per-file pipeline (`process_file`) -/

/-- Expected plain transcript path (`file_path.with_suffix('.md')`). -/
def transcriptPath (f : File) : String := f.dir ++ "/" ++ f.stem ++ ".md"

/-- Expected diarized transcript path
(`file_path.with_name(stem + "_diarized.md")`). -/
def diarizedPath (f : File) : String := f.dir ++ "/" ++ f.stem ++ "_diarized.md"

/-- The durable state `process_file` can touch: the set of files on
disk, and the dedup tracker's ledger. -/
structure PipelineState where
  disk : List String
  tracker : Ledger
deriving DecidableEq

/-- Both expected transcript files for `f` exist on disk. -/
def transcriptsExist (disk : List String) (f : File) : Bool :=
  disk.contains (transcriptPath f) && disk.contains (diarizedPath f)

/-- Embedding of `AudioTranscriber.process_file` at the level of its
effect on durable state, with the transcription outcome passed as a
parameter: when both expected transcript files already exist the file
is skipped; otherwise, on a successful transcription both transcript
files are written; a failed transcription changes nothing.  Audio
extraction and temporary chunk cleanup touch only temporary artifacts
and are omitted.  `process_file` contains no call into the
`FileTracker`, so the ledger component is never read or written. -/
def process_file (transcription : Option DGResponse) (st : PipelineState)
    (f : File) : PipelineState :=
  if transcriptsExist st.disk f then st
  else
    match transcription with
    | some _ => { st with disk := transcriptPath f :: diarizedPath f :: st.disk }
    | none => st

/-- The ProcessedRecord the ledger holds for a file, if any: the entry
under the file's parent directory at the file's content hash. -/
def recordFor (st : Ledger) (f : File) : Option Record :=
  (alookup f.dir st).bind (fun files => alookup (get_file_hash f) files)

/-- The segment-plan specification of claim C2, as amended: writing
`n` for the number of planned segments, the plan is the chunk numbers
`0, ..., n - 1` with `n = max(ceil(D / CHUNK_SIZE), 1)`; every segment
but the last spans a full `CHUNK_SIZE`; windows are contiguous,
non-overlapping and cover exactly `[0, D)`; and the last segment's
duration is `D - (n - 1) * CHUNK_SIZE`, which agrees with the
remainder of `D` modulo `CHUNK_SIZE` whenever that remainder is
non-zero (and is a full `CHUNK_SIZE` when `D` is an exact multiple). -/
def SegmentPlanOk (D : ℚ) : Prop :=
  chunk_audio D = List.range (numChunks D) ∧
  (numChunks D : ℤ) = Int.ceil (D / CHUNK_SIZE) ∧
  1 ≤ numChunks D ∧
  (∀ i : Nat, i + 1 < numChunks D → chunkDuration D i = CHUNK_SIZE) ∧
  (∀ i : Nat, i < numChunks D → 0 < chunkDuration D i) ∧
  (∀ i : Nat, i + 1 < numChunks D →
    chunkStart (i + 1) = chunkStart i + chunkDuration D i) ∧
  (∀ i j : Nat, i < j → j < numChunks D →
    chunkStart i + chunkDuration D i ≤ chunkStart j) ∧
  chunkStart 0 = 0 ∧
  chunkStart (numChunks D - 1) + chunkDuration D (numChunks D - 1) = D ∧
  chunkDuration D (numChunks D - 1) = D - ((numChunks D - 1 : Nat) : ℚ) * CHUNK_SIZE ∧
  (D - CHUNK_SIZE * (Int.floor (D / CHUNK_SIZE) : ℚ) ≠ 0 →
    chunkDuration D (numChunks D - 1) = D - CHUNK_SIZE * (Int.floor (D / CHUNK_SIZE) : ℚ))

/-! ## Association-list lemmas -/

theorem alookup_aset_self (k : α) (v : β) (l : List (α × β)) :
    alookup k (aset k v l) = some v := by
  induction l with
  | nil => simp [aset, alookup]
  | cons p rest ih =>
    obtain ⟨k', v'⟩ := p
    by_cases h : k = k'
    · simp [aset, alookup, h]
    · simp [aset, alookup, h, ih]

theorem alookup_aset_ne {k k' : α} (v : β) (l : List (α × β)) (h : k ≠ k') :
    alookup k (aset k' v l) = alookup k l := by
  induction l with
  | nil => simp [aset, alookup, h]
  | cons p rest ih =>
    obtain ⟨k'', v'⟩ := p
    by_cases h' : k' = k''
    · subst h'
      simp [aset, alookup, h]
    · by_cases h'' : k = k''
      · simp [aset, alookup, h', h'']
      · simp [aset, alookup, h', h'', ih]

theorem aset_aset_self (k : α) (v w : β) (l : List (α × β)) :
    aset k v (aset k w l) = aset k v l := by
  induction l with
  | nil => simp [aset]
  | cons p rest ih =>
    obtain ⟨k', v'⟩ := p
    by_cases h : k = k'
    · simp [aset, h]
    · simp [aset, h, ih]

theorem aset_ne_nil (k : α) (v : β) (l : List (α × β)) : aset k v l ≠ [] := by
  cases l with
  | nil => simp [aset]
  | cons p rest =>
    obtain ⟨k', v'⟩ := p
    by_cases h : k = k' <;> simp [aset, h]

theorem mem_aset {k : α} {v : β} {l : List (α × β)} {p : α × β}
    (hp : p ∈ aset k v l) : p = (k, v) ∨ p ∈ l := by
  induction l with
  | nil =>
    simp [aset] at hp
    exact Or.inl hp
  | cons q rest ih =>
    obtain ⟨k', v'⟩ := q
    by_cases h : k = k'
    · simp only [aset, if_pos h, List.mem_cons] at hp
      rcases hp with h1 | h2
      · exact Or.inl h1
      · exact Or.inr (List.mem_cons_of_mem _ h2)
    · simp only [aset, if_neg h, List.mem_cons] at hp
      rcases hp with h1 | h2
      · exact Or.inr (h1 ▸ List.mem_cons_self _ _)
      · rcases ih h2 with h3 | h4
        · exact Or.inl h3
        · exact Or.inr (List.mem_cons_of_mem _ h4)

theorem mem_aerase {k : α} {l : List (α × β)} {p : α × β}
    (hp : p ∈ aerase k l) : p ∈ l := by
  induction l with
  | nil => simp [aerase] at hp
  | cons q rest ih =>
    obtain ⟨k', v'⟩ := q
    by_cases h : k = k'
    · simp only [aerase, if_pos h] at hp
      exact List.mem_cons_of_mem _ hp
    · simp only [aerase, if_neg h, List.mem_cons] at hp
      rcases hp with h1 | h2
      · exact h1 ▸ List.mem_cons_self _ _
      · exact List.mem_cons_of_mem _ (ih h2)

theorem countKey_aset_self {k : α} (v : β) {l : List (α × β)}
    (h : countKey k l ≤ 1) : countKey k (aset k v l) = 1 := by
  induction l with
  | nil => simp [countKey, aset]
  | cons p rest ih =>
    obtain ⟨k', v'⟩ := p
    by_cases hk : k = k'
    · subst hk
      simp [countKey, aset] at h ⊢
      omega
    · have hk' : ¬ (k' = k) := fun hc => hk hc.symm
      simp only [countKey, aset, if_neg hk, if_neg hk'] at h ⊢
      simp only [Nat.zero_add] at h ⊢
      exact ih h

/-! ## Dedup tracker lemmas -/

/-- Closed form of `mark_file_as_processed`: assign the fresh record
at the file's hash inside the directory's (possibly empty) files map
and store that map back at the directory key. -/
theorem mark_eq (f : File) (t : Nat) (st : Ledger) :
    mark_file_as_processed f t st
      = aset f.dir
          (aset (get_file_hash f) (mkRecord f t) ((alookup f.dir st).getD []))
          st := by
  unfold mark_file_as_processed
  cases h : alookup f.dir st with
  | some files => simp [h]
  | none => simp [h, alookup_aset_self, aset_aset_self]

theorem alookup_mark (f : File) (t : Nat) (st : Ledger) :
    alookup f.dir (mark_file_as_processed f t st)
      = some (aset (get_file_hash f) (mkRecord f t) ((alookup f.dir st).getD [])) := by
  rw [mark_eq]
  exact alookup_aset_self _ _ _

/-- A file just marked is reported processed. -/
theorem is_file_processed_mark (f : File) (t : Nat) (st : Ledger) :
    is_file_processed (mark_file_as_processed f t st) f = true := by
  unfold is_file_processed
  rw [alookup_mark]
  simp [alookup_aset_self]

/-- Marking the same file twice collapses to marking it once at the
second time: the second call overwrites the record in place. -/
theorem mark_mark (f : File) (t1 t2 : Nat) (st : Ledger) :
    mark_file_as_processed f t2 (mark_file_as_processed f t1 st)
      = mark_file_as_processed f t2 st := by
  rw [mark_eq f t1 st, mark_eq f t2 st]
  rw [mark_eq]
  rw [alookup_aset_self]
  simp [aset_aset_self]

/-- Marking a file keeps every directory's files map non-empty. -/
theorem ledgerInv_mark (f : File) (t : Nat) {st : Ledger} (h : LedgerInv st) :
    LedgerInv (mark_file_as_processed f t st) := by
  rw [mark_eq]
  intro p hp
  rcases mem_aset hp with h1 | h2
  · rw [h1]
    exact aset_ne_nil _ _ _
  · exact h p h2

/-- Removing a file keeps every directory's files map non-empty: an
emptied directory entry is deleted outright. -/
theorem ledgerInv_remove (f : File) {st : Ledger} (h : LedgerInv st) :
    LedgerInv (remove_file f st).2 := by
  unfold remove_file
  cases hd : alookup f.dir st with
  | none => exact h
  | some files =>
    by_cases hh : (alookup (get_file_hash f) files).isSome = true
    · by_cases he : (aerase (get_file_hash f) files).isEmpty = true
      · simp only [hh, if_true, he]
        intro p hp
        exact h p (mem_aerase hp)
      · rw [Bool.not_eq_true] at he
        simp only [hh, if_true, he, Bool.false_eq_true, if_false]
        intro p hp
        rcases mem_aset hp with h1 | h2
        · rw [h1]
          intro hc
          have hc' : aerase (get_file_hash f) files = [] := hc
          rw [hc'] at he
          simp at he
        · exact h p h2
    · simp only [hh, if_false]
      exact h

/-- Every sequence of mark/remove mutations preserves the non-empty
directories invariant. -/
theorem ledgerInv_applyOps (ops : List Op) {st : Ledger} (h : LedgerInv st) :
    LedgerInv (applyOps ops st) := by
  induction ops generalizing st with
  | nil => exact h
  | cons op rest ih =>
    have h1 : LedgerInv (applyOp st op) := by
      cases op with
      | mark f t => exact ledgerInv_mark f t h
      | remove f => exact ledgerInv_remove f h
    exact ih h1

/-! ## Claim C10 -/

/-- C10: after every sequence of `mark_file_as_processed` and
`remove_file` operations starting from a loaded ledger satisfying the
invariant (a fresh or degraded-to-empty ledger does, and so does any
ledger this code itself persisted), every directory key present in
the ledger holds a non-empty files map: `remove_file` deletes a
directory entry when its last record is removed, and
`mark_file_as_processed` only creates a directory entry together with
a record in it. -/
theorem c10_directories_nonempty_invariant :
    (∀ ops : List Op, LedgerInv (applyOps ops (load_processed_files .missing))) ∧
    (∀ (ops : List Op) (st : Ledger), LedgerInv st → LedgerInv (applyOps ops st)) := by
  constructor
  · intro ops
    exact ledgerInv_applyOps ops (by intro p hp; simp [load_processed_files] at hp)
  · intro ops st h
    exact ledgerInv_applyOps ops h

theorem c10_directories_nonempty_invariant_witness :
    LedgerInv
      (applyOps [.mark ⟨"a", "x", ".mp3", [7]⟩ 1, .remove ⟨"a", "x", ".mp3", [7]⟩]
        (load_processed_files .missing)) :=
  c10_directories_nonempty_invariant.1
    [.mark ⟨"a", "x", ".mp3", [7]⟩ 1, .remove ⟨"a", "x", ".mp3", [7]⟩]

/-! ## Claim C7 -/

/-- C7: a missing, empty or malformed (undecodable) persisted ledger
loads as zero processed records, and a subsequent
`mark_file_as_processed` on the loaded state succeeds: the marked
file is recorded and reported processed. -/
theorem c7_ledger_resilience (src : LedgerSource) (f : File) (t : Nat)
    (h : src = .missing ∨ src = .empty ∨ src = .malformed) :
    totalRecords (load_processed_files src) = 0 ∧
    is_file_processed (mark_file_as_processed f t (load_processed_files src)) f = true := by
  have hl : load_processed_files src = [] := by
    rcases h with h | h | h <;> subst h <;> rfl
  rw [hl]
  exact ⟨rfl, is_file_processed_mark f t []⟩

theorem c7_ledger_resilience_witness :
    totalRecords (load_processed_files .malformed) = 0 ∧
    is_file_processed
      (mark_file_as_processed ⟨"a", "x", ".mp3", [7]⟩ 3 (load_processed_files .malformed))
      ⟨"a", "x", ".mp3", [7]⟩ = true :=
  c7_ledger_resilience .malformed ⟨"a", "x", ".mp3", [7]⟩ 3 (Or.inr (Or.inr rfl))

/-! ## Claim C6 -/

/-- C6 counterexample: marking the same file twice at different times
is not a no-op: the second call overwrites the record, refreshing its
processed timestamp, so the ledger after the second call differs from
the ledger after the first. -/
theorem c6_counterexample_second_call_not_noop :
    mark_file_as_processed ⟨"a", "x", ".mp3", [7]⟩ 2
        (mark_file_as_processed ⟨"a", "x", ".mp3", [7]⟩ 1 [])
      ≠ mark_file_as_processed ⟨"a", "x", ".mp3", [7]⟩ 1 [] := by
  decide

/-- C6 as amended: marking the same file twice yields exactly one
record for its content hash under its directory (starting from any
ledger without duplicate hash bindings there, which is every ledger
the tracker itself builds), but the second call is an overwrite, not
a no-op: it collapses to a single mark at the second timestamp. -/
theorem c6_mark_idempotent_amended (f : File) (t1 t2 : Nat) (st : Ledger)
    (h : countKey (get_file_hash f) ((alookup f.dir st).getD []) ≤ 1) :
    mark_file_as_processed f t2 (mark_file_as_processed f t1 st)
        = mark_file_as_processed f t2 st ∧
    countKey (get_file_hash f)
        ((alookup f.dir
            (mark_file_as_processed f t2 (mark_file_as_processed f t1 st))).getD [])
      = 1 := by
  refine ⟨mark_mark f t1 t2 st, ?_⟩
  rw [mark_mark f t1 t2 st, alookup_mark]
  simp only [Option.getD_some]
  exact countKey_aset_self _ h

theorem c6_mark_idempotent_amended_witness :
    mark_file_as_processed ⟨"a", "x", ".mp3", [7]⟩ 2
        (mark_file_as_processed ⟨"a", "x", ".mp3", [7]⟩ 1 [])
      = mark_file_as_processed ⟨"a", "x", ".mp3", [7]⟩ 2 [] ∧
    countKey (get_file_hash (⟨"a", "x", ".mp3", [7]⟩ : File))
        ((alookup "a"
            (mark_file_as_processed ⟨"a", "x", ".mp3", [7]⟩ 2
              (mark_file_as_processed ⟨"a", "x", ".mp3", [7]⟩ 1 []))).getD [])
      = 1 :=
  c6_mark_idempotent_amended ⟨"a", "x", ".mp3", [7]⟩ 1 2 [] (by decide)

/-! ## Claim C3 -/

/-- C3 counterexample: two files with identical byte contents in
different parent directories are not recognized as the same processed
entity: the ledger is keyed by parent directory first, so marking the
file under directory `a` leaves its byte-identical copy under
directory `b` reported unprocessed. -/
theorem c3_counterexample_cross_directory :
    is_file_processed
        (mark_file_as_processed ⟨"a", "x", ".mp3", [7]⟩ 0 [])
        ⟨"b", "x", ".mp3", [7]⟩ = false := by
  decide

/-- C3 as amended: identity is the pair (parent directory, content
hash).  Two files with identical bytes under the same parent
directory (any names) are recognized as the same processed entity
once one is marked; any content change yields a different hash, and a
file with that changed content is treated as unprocessed by a fresh
ledger that only recorded the original. -/
theorem c3_dedup_amended (f1 f2 f3 : File) (t : Nat) (st : Ledger)
    (h12c : f1.content = f2.content) (h12d : f1.dir = f2.dir)
    (h13 : f1.content ≠ f3.content) :
    is_file_processed (mark_file_as_processed f1 t st) f2 = true ∧
    get_file_hash f1 ≠ get_file_hash f3 ∧
    is_file_processed (mark_file_as_processed f1 t []) f3 = false := by
  have hhash : get_file_hash f2 = get_file_hash f1 := h12c.symm
  refine ⟨?_, fun hc => h13 hc, ?_⟩
  · unfold is_file_processed
    rw [← h12d, alookup_mark, hhash]
    simp [alookup_aset_self]
  · have hmark : mark_file_as_processed f1 t []
        = [(f1.dir, [(get_file_hash f1, mkRecord f1 t)])] := by
      rw [mark_eq]
      rfl
    have hne : get_file_hash f3 ≠ get_file_hash f1 := fun hc => h13 hc.symm
    unfold is_file_processed
    rw [hmark]
    by_cases hd : f3.dir = f1.dir
    · simp [alookup, hd, hne]
    · simp [alookup, hd]

theorem c3_dedup_amended_witness :
    is_file_processed
        (mark_file_as_processed ⟨"a", "x", ".mp3", [7]⟩ 0 [])
        ⟨"a", "y", ".wav", [7]⟩ = true ∧
    get_file_hash (⟨"a", "x", ".mp3", [7]⟩ : File)
        ≠ get_file_hash (⟨"a", "x", ".mp3", [8]⟩ : File) ∧
    is_file_processed
        (mark_file_as_processed ⟨"a", "x", ".mp3", [7]⟩ 0 [])
        ⟨"a", "x", ".mp3", [8]⟩ = false :=
  c3_dedup_amended ⟨"a", "x", ".mp3", [7]⟩ ⟨"a", "y", ".wav", [7]⟩
    ⟨"a", "x", ".mp3", [8]⟩ 0 [] rfl rfl (by decide)

/-! ## Claim C8 -/

/-- C8 counterexample: the is-processed check consults only the
ledger, never the disk, and adopts nothing.  For a file whose two
expected transcript files exist on disk but which has no ledger
record, `is_file_processed` answers `false` (the claim says the check
answers `true`), and the skip path of `process_file` leaves the
ledger without any record (the claim says a record is created as a
side effect). -/
theorem c8_counterexample_no_adoption :
    transcriptsExist
        [transcriptPath ⟨"a", "rec", ".mp3", [1]⟩, diarizedPath ⟨"a", "rec", ".mp3", [1]⟩]
        ⟨"a", "rec", ".mp3", [1]⟩ = true ∧
    is_file_processed [] ⟨"a", "rec", ".mp3", [1]⟩ = false ∧
    (process_file (some ⟨"hi", [], none⟩)
        ⟨[transcriptPath ⟨"a", "rec", ".mp3", [1]⟩, diarizedPath ⟨"a", "rec", ".mp3", [1]⟩], []⟩
        ⟨"a", "rec", ".mp3", [1]⟩).tracker = [] := by
  refine ⟨by decide, by decide, ?_⟩
  decide

/-- C8 as amended: `is_file_processed` returns `true` exactly when a
ProcessedRecord exists in the ledger for the file's (parent
directory, content hash) pair; separately, `process_file` skips a
file whose two expected transcript files already exist on disk,
changing nothing — in particular it creates no ledger record (no
adoption). -/
theorem c8_is_processed_amended (st : Ledger) (f f' : File)
    (tr : Option DGResponse) (ps : PipelineState)
    (h : transcriptsExist ps.disk f' = true) :
    (is_file_processed st f = true ↔ ∃ r, recordFor st f = some r) ∧
    process_file tr ps f' = ps := by
  constructor
  · unfold is_file_processed recordFor
    cases alookup f.dir st with
    | none => simp
    | some files => simp [Option.isSome_iff_exists]
  · unfold process_file
    simp [h]

theorem c8_is_processed_amended_witness :
    (is_file_processed
        (mark_file_as_processed ⟨"a", "x", ".mp3", [7]⟩ 0 [])
        ⟨"a", "x", ".mp3", [7]⟩ = true ↔
      ∃ r, recordFor
          (mark_file_as_processed ⟨"a", "x", ".mp3", [7]⟩ 0 [])
          ⟨"a", "x", ".mp3", [7]⟩ = some r) ∧
    process_file none
        ⟨[transcriptPath ⟨"b", "y", ".wav", [2]⟩, diarizedPath ⟨"b", "y", ".wav", [2]⟩], []⟩
        ⟨"b", "y", ".wav", [2]⟩
      = ⟨[transcriptPath ⟨"b", "y", ".wav", [2]⟩, diarizedPath ⟨"b", "y", ".wav", [2]⟩], []⟩ :=
  c8_is_processed_amended
    (mark_file_as_processed ⟨"a", "x", ".mp3", [7]⟩ 0 [])
    ⟨"a", "x", ".mp3", [7]⟩ ⟨"b", "y", ".wav", [2]⟩ none
    ⟨[transcriptPath ⟨"b", "y", ".wav", [2]⟩, diarizedPath ⟨"b", "y", ".wav", [2]⟩], []⟩
    (by decide)

/-! ## Claim C1 -/

/-- C1, evaluated against the code: `process_file` never touches the
dedup ledger — there is no call into the FileTracker anywhere in
`AudioTranscriber` — so after a successful transcript write from a
fresh state the transcript files exist on disk while
`is_file_processed` still reports the source file unprocessed,
contradicting the claimed marked-iff-written invariant and the
claimed mark-processed trigger. -/
theorem c1_transcript_written_but_never_marked :
    (∀ (tr : Option DGResponse) (st : PipelineState) (f : File),
      (process_file tr st f).tracker = st.tracker) ∧
    (process_file (some ⟨"hello", [], none⟩) ⟨[], []⟩
        ⟨"a", "rec", ".mp3", [1, 2]⟩).disk.contains
        (transcriptPath ⟨"a", "rec", ".mp3", [1, 2]⟩) = true ∧
    is_file_processed
        (process_file (some ⟨"hello", [], none⟩) ⟨[], []⟩
          ⟨"a", "rec", ".mp3", [1, 2]⟩).tracker
        ⟨"a", "rec", ".mp3", [1, 2]⟩ = false := by
  refine ⟨?_, by decide, by decide⟩
  intro tr st f
  unfold process_file
  split
  · rfl
  · cases tr <;> rfl

theorem c1_transcript_written_but_never_marked_witness :
    (process_file none ⟨["d/x.md"], [("d", [([5], mkRecord ⟨"d", "x", ".mp3", [5]⟩ 0)])]⟩
        ⟨"d", "x", ".mp3", [5]⟩).tracker
      = [("d", [([5], mkRecord ⟨"d", "x", ".mp3", [5]⟩ 0)])] :=
  c1_transcript_written_but_never_marked.1 none
    ⟨["d/x.md"], [("d", [([5], mkRecord ⟨"d", "x", ".mp3", [5]⟩ 0)])]⟩
    ⟨"d", "x", ".mp3", [5]⟩

/-! ## Chunk-loop lemmas -/

/-- Once the consecutive-invalid counter stands at the threshold, the
loop stops immediately, whatever fuel remains. -/
theorem chunkLoop_stopped (valid : Nat → Bool) (fuel n : Nat) :
    chunkLoop valid fuel n 3 = [] := by
  cases fuel <;> simp [chunkLoop]

/-- Behavior of the chunk loop from a reachable intermediate state:
with `M` the first chunk number opening a run of three consecutive
invalid chunks, a loop state at chunk `n` carrying a current invalid
streak of length `c` (the `c` chunks just before `n` are invalid and
the streak start has not passed `M`) finishes by keeping exactly the
valid chunk numbers among `n, ..., M + 2`, provided the remaining
fuel covers those iterations. -/
theorem chunkLoop_spec (valid : Nat → Bool) (M : Nat)
    (hM : threeConsec valid M)
    (hmin : ∀ k, k < M → ¬ threeConsec valid k) :
    ∀ fuel n c, c < 3 → c ≤ n →
      (∀ j, n - c ≤ j → j < n → valid j = false) →
      n - c ≤ M →
      M + 3 ≤ n + fuel →
      chunkLoop valid fuel n c = (List.range' n (M + 3 - n)).filter valid := by
  intro fuel
  induction fuel with
  | zero =>
    intro n c hc hcn hstreak hstart hfuel
    omega
  | succ fuel ih =>
    intro n c hc hcn hstreak hstart hfuel
    have hn2 : n ≤ M + 2 := by omega
    have hsplit : M + 3 - n = (M + 3 - (n + 1)) + 1 := by omega
    rw [hsplit, List.range'_succ]
    rw [chunkLoop.eq_def]
    simp only
    rw [if_neg (by omega)]
    by_cases hv : valid n = true
    · rw [if_pos hv]
      have hnM : n < M := by
        by_contra hcon
        push_neg at hcon
        obtain ⟨hM0, hM1, hM2⟩ := hM
        have h3 : n = M ∨ n = M + 1 ∨ n = M + 2 := by omega
        rcases h3 with h | h | h <;> subst h <;> simp_all
      have hrec := ih (n + 1) 0 (by omega) (by omega)
        (by intro j h1 h2; omega) (by omega) (by omega)
      rw [hrec, List.filter_cons, if_pos hv]
    · have hv' : valid n = false := by
        cases hval : valid n
        · rfl
        · exact absurd hval hv
      rw [if_neg hv]
      by_cases hc2 : c = 2
      · subst hc2
        rw [chunkLoop_stopped]
        have hn2' : 2 ≤ n := hcn
        have hstreak0 : valid (n - 2) = false := hstreak (n - 2) (by omega) (by omega)
        have hstreak1 : valid (n - 1) = false := hstreak (n - 1) (by omega) (by omega)
        have hthree : threeConsec valid (n - 2) := by
          refine ⟨hstreak0, ?_, ?_⟩
          · have e1 : n - 2 + 1 = n - 1 := by omega
            rw [e1]
            exact hstreak1
          · have e2 : n - 2 + 2 = n := by omega
            rw [e2]
            exact hv'
        have hM2 : M ≤ n - 2 := by
          by_contra hcon
          push_neg at hcon
          exact hmin (n - 2) hcon hthree
        have hnM2 : n = M + 2 := by omega
        have hlen0 : M + 3 - (n + 1) = 0 := by omega
        rw [hlen0]
        simp [List.filter_cons, hv']
      · have hrec := ih (n + 1) (c + 1) (by omega) (by omega) ?_ (by omega) (by omega)
        · rw [hrec, List.filter_cons, if_neg hv]
        · intro j h1 h2
          have he : n + 1 - (c + 1) = n - c := by omega
          rw [he] at h1
          by_cases hj : j = n
          · rw [hj]
            exact hv'
          · exact hstreak j h1 (by omega)

/-- The chunk loop, started fresh with enough fuel, keeps exactly the
valid chunk numbers among the examined prefix `0, ..., M + 2`, where
`M` opens the first run of three consecutive invalid chunks. -/
theorem chunkLoop_eq_filter (valid : Nat → Bool) (M fuel : Nat)
    (hM : threeConsec valid M) (hmin : ∀ k, k < M → ¬ threeConsec valid k)
    (hfuel : M + 3 ≤ fuel) :
    chunkLoop valid fuel 0 0 = (List.range (M + 3)).filter valid := by
  have h := chunkLoop_spec valid M hM hmin fuel 0 0 (by omega) (by omega)
    (by intro j h1 h2; omega) (by omega) (by omega)
  rw [h, List.range_eq_range']
  norm_num

/-- The chunks at `M`, `M + 1`, `M + 2` are invalid, so dropping them
from the examined prefix changes nothing: the kept chunks are the
valid ones among `0, ..., M - 1`. -/
theorem filter_range_add_three (valid : Nat → Bool) (M : Nat)
    (hM : threeConsec valid M) :
    (List.range (M + 3)).filter valid = (List.range M).filter valid := by
  obtain ⟨hM0, hM1, hM2⟩ := hM
  have hsplit : List.range (M + 3) = List.range M ++ List.range' M 3 := by
    rw [List.range_eq_range', List.range_eq_range']
    have := List.range'_append 0 M 3 1
    simp only [Nat.zero_add, Nat.one_mul] at this
    rw [this]
    norm_num [Nat.add_comm]
  rw [hsplit, List.filter_append]
  have h3 : List.range' M 3 = [M, M + 1, M + 2] := rfl
  rw [h3]
  simp [List.filter_cons, hM0, hM1, hM2]

/-! ## Claim C9 -/

/-- C9: segment generation stops as soon as the count of consecutive
invalid segments reaches the fixed threshold 3, with the counter
resetting on each valid segment: whatever per-chunk validity outcomes
the segmenter produces, once chunk `M` opens the first run of three
consecutive invalid chunks the loop examines exactly chunks
`0, ..., M + 2` — independent of any further fuel — and keeps all
valid segments produced before stopping, in production order. -/
theorem c9_stop_after_three_consecutive_invalid (valid : Nat → Bool) (M fuel : Nat)
    (hM : threeConsec valid M)
    (hmin : ∀ k, k < M → ¬ threeConsec valid k)
    (hfuel : M + 3 ≤ fuel) :
    chunkLoop valid fuel 0 0 = (List.range (M + 3)).filter valid ∧
    chunkLoop valid fuel 0 0 = (List.range M).filter valid ∧
    (chunkLoop valid fuel 0 0).Pairwise (· < ·) := by
  have h1 := chunkLoop_eq_filter valid M fuel hM hmin hfuel
  have h2 := filter_range_add_three valid M hM
  refine ⟨h1, h1.trans h2, ?_⟩
  rw [h1]
  exact (List.pairwise_lt_range (M + 3)).filter valid

theorem c9_stop_after_three_consecutive_invalid_witness :
    chunkLoop (fun n => decide (n < 2)) 9 0 0
        = (List.range (2 + 3)).filter (fun n => decide (n < 2)) ∧
    chunkLoop (fun n => decide (n < 2)) 9 0 0
        = (List.range 2).filter (fun n => decide (n < 2)) ∧
    (chunkLoop (fun n => decide (n < 2)) 9 0 0).Pairwise (· < ·) :=
  c9_stop_after_three_consecutive_invalid (fun n => decide (n < 2)) 2 9
    (by decide) (by decide) (by decide)

/-! ## Segment-plan lemmas -/

theorem chunk_size_pos : (0 : ℚ) < CHUNK_SIZE := by norm_num [CHUNK_SIZE]

/-- Chunk `n` of a source of duration `D` is valid exactly when `n`
lies below the planned chunk count. -/
theorem chunkValid_iff (D : ℚ) (n : Nat) :
    chunkValid D n = true ↔ n < numChunks D := by
  unfold chunkValid numChunks
  rw [decide_eq_true_eq, ← lt_div_iff₀ chunk_size_pos, Int.lt_toNat, Int.lt_ceil]
  norm_cast

theorem chunkValid_false_of_ge (D : ℚ) (n : Nat) (h : numChunks D ≤ n) :
    chunkValid D n = false := by
  cases hv : chunkValid D n
  · rfl
  · exact absurd ((chunkValid_iff D n).mp hv) (by omega)

theorem numChunks_pos (D : ℚ) (hD : 0 < D) : 1 ≤ numChunks D := by
  have h1 : 0 < Int.ceil (D / CHUNK_SIZE) :=
    Int.ceil_pos.mpr (div_pos hD chunk_size_pos)
  exact Int.lt_toNat.mpr h1

theorem numChunks_cast (D : ℚ) (hD : 0 < D) :
    ((numChunks D : Nat) : ℤ) = Int.ceil (D / CHUNK_SIZE) := by
  unfold numChunks
  exact Int.toNat_of_nonneg (le_of_lt (Int.ceil_pos.mpr (div_pos hD chunk_size_pos)))

/-- The chunk loop on a source of duration `D` keeps exactly the
chunk numbers `0, ..., numChunks D - 1`. -/
theorem chunk_audio_eq_range (D : ℚ) :
    chunk_audio D = List.range (numChunks D) := by
  have hM : threeConsec (chunkValid D) (numChunks D) :=
    ⟨chunkValid_false_of_ge D _ (by omega), chunkValid_false_of_ge D _ (by omega),
      chunkValid_false_of_ge D _ (by omega)⟩
  have hmin : ∀ k, k < numChunks D → ¬ threeConsec (chunkValid D) k := by
    intro k hk hc
    rcases hc with ⟨h0, _, _⟩
    rw [(chunkValid_iff D k).mpr hk] at h0
    simp at h0
  unfold chunk_audio
  rw [chunkLoop_eq_filter (chunkValid D) (numChunks D) (numChunks D + 4) hM hmin (by omega),
    filter_range_add_three _ _ hM]
  rw [List.filter_eq_self]
  intro a ha
  exact (chunkValid_iff D a).mpr (List.mem_range.mp ha)

/-! ## Claim C2 -/

/-- C2 counterexample: at an exact multiple of the segment length —
duration 900 with segment length 900 — the plan has one segment whose
duration is the full 900 seconds, while the remainder of the duration
modulo the segment length is 0; the last segment's duration is not
`D mod L` there. -/
theorem c2_counterexample_exact_multiple :
    chunk_audio 900 = [0] ∧
    chunkDuration 900 0 = 900 ∧
    (900 : ℚ) - CHUNK_SIZE * (Int.floor ((900 : ℚ) / CHUNK_SIZE) : ℚ) = 0 ∧
    (900 : ℚ) ≠ 0 := by
  refine ⟨?_, ?_, ?_, by norm_num⟩
  · rw [chunk_audio_eq_range]
    have h1 : numChunks 900 = 1 := by
      unfold numChunks CHUNK_SIZE
      norm_num
    rw [h1]
    rfl
  · unfold chunkDuration CHUNK_SIZE
    norm_num
  · unfold CHUNK_SIZE
    norm_num

/-- C2 as amended: for a probed duration `D > 0` and the fixed
segment length 900, the plan has exactly `ceil(D / 900)` entries
(minimum 1), its windows are contiguous, non-overlapping and cover
exactly `[0, D)`, and the last segment's duration is
`D - (n - 1) * 900` — equal to `D mod 900` whenever that remainder is
non-zero, and to a full 900 when `D` is an exact multiple. -/
theorem c2_segment_plan_amended (D : ℚ) (hD : 0 < D) : SegmentPlanOk D := by
  have h900 := chunk_size_pos
  have hN1 : 1 ≤ numChunks D := numChunks_pos D hD
  have hcast : ((numChunks D : Nat) : ℤ) = Int.ceil (D / CHUNK_SIZE) := numChunks_cast D hD
  have hvalid : ∀ i : Nat, i < numChunks D → (i : ℚ) * CHUNK_SIZE < D := by
    intro i hi
    have h1 := (chunkValid_iff D i).mpr hi
    unfold chunkValid at h1
    exact of_decide_eq_true h1
  have hle : D ≤ (numChunks D : ℚ) * CHUNK_SIZE := by
    have h1 : Int.ceil (D / CHUNK_SIZE) ≤ ((numChunks D : Nat) : ℤ) := le_of_eq hcast.symm
    have h2 : D / CHUNK_SIZE ≤ (((numChunks D : Nat) : ℤ) : ℚ) := Int.ceil_le.mp h1
    rw [div_le_iff₀ h900] at h2
    exact_mod_cast h2
  have hcast1 : ((numChunks D - 1 : Nat) : ℚ) = (numChunks D : ℚ) - 1 := by
    push_cast [Nat.cast_sub hN1]
    ring
  have hfull : ∀ i : Nat, i + 1 < numChunks D → chunkDuration D i = CHUNK_SIZE := by
    intro i hi
    have h1 : ((i + 1 : Nat) : ℚ) * CHUNK_SIZE < D := hvalid (i + 1) hi
    push_cast at h1
    unfold chunkDuration
    rw [min_eq_left]
    linarith
  have hlast : chunkDuration D (numChunks D - 1)
      = D - ((numChunks D - 1 : Nat) : ℚ) * CHUNK_SIZE := by
    unfold chunkDuration
    rw [min_eq_right]
    rw [hcast1]
    have : ((numChunks D : ℚ) - 1) * CHUNK_SIZE = (numChunks D : ℚ) * CHUNK_SIZE - CHUNK_SIZE := by
      ring
    rw [this]
    linarith
  refine ⟨chunk_audio_eq_range D, hcast, hN1, hfull, ?_, ?_, ?_, ?_, ?_, hlast, ?_⟩
  · intro i hi
    unfold chunkDuration
    rw [lt_min_iff]
    exact ⟨h900, by have := hvalid i hi; linarith⟩
  · intro i hi
    rw [hfull i hi]
    unfold chunkStart
    push_cast
    ring
  · intro i j hij hj
    have hd : chunkDuration D i ≤ CHUNK_SIZE := min_le_left _ _
    have hij' : ((i : ℚ) + 1) ≤ (j : ℚ) := by exact_mod_cast hij
    have h1 : ((i : ℚ) + 1) * CHUNK_SIZE ≤ (j : ℚ) * CHUNK_SIZE :=
      mul_le_mul_of_nonneg_right hij' (le_of_lt h900)
    unfold chunkStart
    nlinarith
  · unfold chunkStart
    norm_num
  · rw [hlast]
    unfold chunkStart
    ring
  · intro hr
    have hfl : (Int.floor (D / CHUNK_SIZE) : ℚ) < D / CHUNK_SIZE := by
      rcases lt_or_eq_of_le (Int.floor_le (D / CHUNK_SIZE)) with h | h
      · exact h
      · exfalso
        apply hr
        rw [h]
        field_simp
    have hlt : Int.floor (D / CHUNK_SIZE) < Int.ceil (D / CHUNK_SIZE) := by
      exact_mod_cast lt_of_lt_of_le hfl (Int.le_ceil _)
    have hceil : Int.ceil (D / CHUNK_SIZE) = Int.floor (D / CHUNK_SIZE) + 1 := by
      have h2 := Int.ceil_le_floor_add_one (D / CHUNK_SIZE)
      omega
    have hNfl : ((numChunks D - 1 : Nat) : ℤ) = Int.floor (D / CHUNK_SIZE) := by
      have h2 : ((numChunks D : Nat) : ℤ) = Int.floor (D / CHUNK_SIZE) + 1 := by
        rw [hcast, hceil]
      have h3 : (1 : ℤ) ≤ ((numChunks D : Nat) : ℤ) := by exact_mod_cast hN1
      push_cast [Nat.cast_sub hN1]
      omega
    have hq : ((numChunks D - 1 : Nat) : ℚ) = (Int.floor (D / CHUNK_SIZE) : ℚ) := by
      exact_mod_cast hNfl
    rw [hlast, hq]
    ring

theorem c2_segment_plan_amended_witness :
    (0 : ℚ) < 1000 ∧ SegmentPlanOk 1000 :=
  ⟨by decide, c2_segment_plan_amended 1000 (by decide)⟩

/-! ## Recombination lemmas -/

theorem specJoinSpace_append (a b : String) (L : List String) :
    specJoinSpace ((a ++ " " ++ b) :: L) = a ++ " " ++ specJoinSpace (b :: L) := by
  cases L with
  | nil => simp [specJoinSpace, String.append_assoc]
  | cons c L' => simp [specJoinSpace, String.append_assoc]

theorem foldl_combineStep_transcript (l : List DGResponse) (acc : DGResponse) :
    (l.foldl combineStep acc).transcript
      = specJoinSpace (acc.transcript :: l.map DGResponse.transcript) := by
  induction l generalizing acc with
  | nil => simp [specJoinSpace]
  | cons t rest ih =>
    rw [List.foldl_cons, ih (combineStep acc t)]
    simp only [List.map_cons]
    have hstep : (combineStep acc t).transcript = acc.transcript ++ " " ++ t.transcript := rfl
    rw [hstep, specJoinSpace_append]
    rfl

/-- The plain transcript of a combined response is the space-joined
concatenation of the inputs' transcripts in list order. -/
theorem combine_transcriptions_transcript (t0 : DGResponse) (rest : List DGResponse) :
    (combine_transcriptions (t0 :: rest)).transcript
      = specJoinSpace ((t0 :: rest).map DGResponse.transcript) := by
  simp [combine_transcriptions, foldl_combineStep_transcript]

/-- The plain transcript `transcribe_audio` assembles is the
space-joined concatenation of the successful per-chunk transcripts in
task order, provided at least one chunk succeeded. -/
theorem transcribe_audio_transcript (results : List (Except TranscribeError DGResponse))
    (h : valid_transcriptions results ≠ []) :
    (transcribe_audio results).map DGResponse.transcript
      = some (specJoinSpace ((valid_transcriptions results).map DGResponse.transcript)) := by
  unfold transcribe_audio
  cases hv : valid_transcriptions results with
  | nil => exact absurd hv h
  | cons t0 rest =>
    cases rest with
    | nil => simp [specJoinSpace]
    | cons t1 rest' => simp [combine_transcriptions_transcript]

/-- Collecting completion-tagged results back by index recovers the
per-index outcomes, whatever the completion order was. -/
theorem gatherByIndex_perm (N : Nat) (f : Nat → Except TranscribeError DGResponse)
    (completed : List (Nat × Except TranscribeError DGResponse))
    (hp : completed.Perm ((List.range N).map fun i => (i, f i))) :
    gatherByIndex N completed = (List.range N).map f := by
  unfold gatherByIndex
  apply List.map_congr_left
  intro i hi
  have hmem : (i, f i) ∈ completed := hp.mem_iff.mpr (List.mem_map.mpr ⟨i, hi, rfl⟩)
  cases hf : completed.find? (fun p => p.1 == i) with
  | none =>
    exfalso
    have h2 : ((completed.find? fun p => p.1 == i)).isSome = true :=
      List.find?_isSome.mpr ⟨(i, f i), hmem, by simp⟩
    rw [hf] at h2
    simp at h2
  | some q =>
    have hq1 : q.1 = i := by
      have := List.find?_some hf
      simpa using this
    have hqmem : q ∈ completed := List.mem_of_find?_eq_some hf
    have hq2 : q ∈ (List.range N).map (fun j => (j, f j)) := hp.mem_iff.mp hqmem
    obtain ⟨a, _, hEq⟩ := List.mem_map.mp hq2
    have ha1 : a = i := by
      have h3 : (a, f a).1 = q.1 := by rw [hEq]
      simpa [hq1] using h3
    have hq : q = (i, f i) := by rw [← hEq, ha1]
    simp [hf, hq]

/-! ## Claim C4 -/

/-- C4: for per-chunk outcomes completing in an arbitrary order (any
permutation of the index-tagged outcomes), the gathered, recombined
plain transcript is the concatenation, in chunk-index order, of the
successful chunks' transcripts joined by single spaces, failed chunks
skipped — independent of the completion order. -/
theorem c4_recombination_index_order (N : Nat)
    (f : Nat → Except TranscribeError DGResponse)
    (completed : List (Nat × Except TranscribeError DGResponse))
    (_hN : 1 ≤ N)
    (hp : completed.Perm ((List.range N).map fun i => (i, f i)))
    (h : valid_transcriptions ((List.range N).map f) ≠ []) :
    (transcribe_audio (gatherByIndex N completed)).map DGResponse.transcript
      = some (specJoinSpace
          ((valid_transcriptions ((List.range N).map f)).map DGResponse.transcript)) := by
  rw [gatherByIndex_perm N f completed hp]
  exact transcribe_audio_transcript _ h

theorem c4_recombination_index_order_witness :
    (transcribe_audio (gatherByIndex 3
        [(2, Except.ok ⟨"gamma", [], none⟩), (0, Except.ok ⟨"alpha", [], none⟩),
          (1, Except.error .timeout)])).map DGResponse.transcript
      = some (specJoinSpace
          ((valid_transcriptions ((List.range 3).map fun i =>
              if i = 0 then Except.ok (⟨"alpha", [], none⟩ : DGResponse)
              else if i = 2 then Except.ok ⟨"gamma", [], none⟩
              else Except.error .timeout)).map DGResponse.transcript)) :=
  c4_recombination_index_order 3
    (fun i =>
      if i = 0 then Except.ok ⟨"alpha", [], none⟩
      else if i = 2 then Except.ok ⟨"gamma", [], none⟩
      else Except.error .timeout)
    [(2, Except.ok ⟨"gamma", [], none⟩), (0, Except.ok ⟨"alpha", [], none⟩),
      (1, Except.error .timeout)]
    (by decide) (by decide) (by decide)

/-! ## Retry lemmas -/

/-- A provider call that would run past the wall-clock timeout, or
whose own outcome is an error, makes the attempt fail. -/
theorem attemptOutcome_error (a : ProviderAttempt)
    (h : TIMEOUT < a.elapsed ∨ ∃ e, a.result = .error e) :
    ∃ e, attemptOutcome a = .error e := by
  unfold attemptOutcome
  by_cases ht : TIMEOUT < a.elapsed
  · exact ⟨.timeout, by rw [if_pos ht]⟩
  · rcases h with h | ⟨e, he⟩
    · exact absurd h ht
    · exact ⟨e, by rw [if_neg ht, he]⟩

/-- When every attempt fails, the retry wrapper uses up all its tries
and surfaces the last failure. -/
theorem retryCall_all_fail (att : Nat → Except TranscribeError DGResponse)
    (hfail : ∀ i, ∃ e, att i = .error e) :
    ∀ t k, ∃ e, retryCall att (t + 1) k = (.error e, k + (t + 1)) := by
  intro t
  induction t with
  | zero =>
    intro k
    obtain ⟨e, he⟩ := hfail k
    exact ⟨e, by simp [retryCall, he]⟩
  | succ t ih =>
    intro k
    obtain ⟨e, he⟩ := hfail k
    obtain ⟨e', he'⟩ := ih (k + 1)
    refine ⟨e', ?_⟩
    have harith : k + (t + 1 + 1) = (k + 1) + (t + 1) := by omega
    rw [harith, ← he']
    simp [retryCall, he]

/-- The retry wrapper never makes more attempts than its try budget. -/
theorem retryCall_count_le (att : Nat → Except TranscribeError DGResponse) :
    ∀ t k, (retryCall att t k).2 ≤ k + t := by
  intro t
  induction t with
  | zero =>
    intro k
    simp [retryCall]
  | succ t ih =>
    intro k
    cases hat : att k with
    | ok r => simp [retryCall, hat]
    | error e =>
      cases t with
      | zero => simp [retryCall, hat]
      | succ t' =>
        have hih := ih (k + 1)
        simp [retryCall, hat]
        omega

theorem gather_results_getD (N : Nat) (attempts : Nat → Nat → ProviderAttempt)
    (j : Nat) (hj : j < N) :
    (gather_results N attempts).getD j (.error .timeout)
      = (transcribe_chunk (attempts j)).1 := by
  unfold gather_results
  rw [List.getD_eq_getElem?_getD, List.getElem?_map, List.getElem?_range hj]
  rfl

/-! ## Claim C5 -/

/-- C5: a chunk whose provider call permanently fails — every attempt
either errors or runs past the 600-second wall-clock timeout, which
counts as a failed attempt — is attempted exactly `MAX_TRIES = 3`
times; no call is ever attempted more than `MAX_TRIES` times; the
chunk's outcome is recorded as a terminal per-chunk failure; and every
sibling chunk's entry in the gathered results is its own independent
outcome, unaffected by the failure. -/
theorem c5_retry_exactly_three (N c : Nat) (attempts : Nat → Nat → ProviderAttempt)
    (_hc : c < N)
    (hfail : ∀ i, TIMEOUT < (attempts c i).elapsed ∨ ∃ e, (attempts c i).result = .error e) :
    (transcribe_chunk (attempts c)).2 = MAX_TRIES ∧
    (∃ e, (transcribe_chunk (attempts c)).1 = Except.error e) ∧
    (∀ a : Nat → ProviderAttempt, (transcribe_chunk a).2 ≤ MAX_TRIES) ∧
    (∀ j, j < N → (gather_results N attempts).getD j (.error .timeout)
        = (transcribe_chunk (attempts j)).1) := by
  have hfail' : ∀ i, ∃ e, attemptOutcome (attempts c i) = .error e :=
    fun i => attemptOutcome_error _ (hfail i)
  obtain ⟨e, he⟩ := retryCall_all_fail _ hfail' 2 0
  have he3 : retryCall (fun i => attemptOutcome (attempts c i)) 3 0 = (Except.error e, 3) := by
    simpa using he
  refine ⟨?_, ⟨e, ?_⟩, ?_, ?_⟩
  · unfold transcribe_chunk MAX_TRIES
    rw [he3]
  · unfold transcribe_chunk MAX_TRIES
    rw [he3]
  · intro a
    have hb := retryCall_count_le (fun i => attemptOutcome (a i)) MAX_TRIES 0
    unfold transcribe_chunk
    omega
  · exact fun j hj => gather_results_getD N attempts j hj

theorem c5_retry_exactly_three_witness :
    (transcribe_chunk fun _ =>
        (⟨700, Except.ok ⟨"x", [], none⟩⟩ : ProviderAttempt)).2 = MAX_TRIES ∧
    ∃ e, (transcribe_chunk fun _ =>
        (⟨700, Except.ok ⟨"x", [], none⟩⟩ : ProviderAttempt)).1 = Except.error e :=
  let h := c5_retry_exactly_three 1 0
    (fun _ _ => ⟨700, Except.ok ⟨"x", [], none⟩⟩)
    (by decide) (fun _ => Or.inl (of_decide_eq_true rfl))
  ⟨h.1, h.2.1⟩

end STT
